import Mathlib

/-!
A shallow embedding of the catalog/schema layer of qlbridge
(`src/schema/schema.go`) together with proofs about its behaviour.

Modelling conventions:
* Go maps are modelled as association lists `List (String × α)`; a Go map
  whose values are pointers (which may be nil) uses `α = Option β`.
* The mutable graph of `*Schema` pointers is modelled as a heap
  (`Catalog`): schema nodes are addressed by `SchemaId` and every pointer
  field stores an id.  `nil` pointers are `none`.
* `time.Time` is modelled as an `Int` nanosecond timestamp; the zero time
  is `0` and `time.Now()` is passed in explicitly as a `now` parameter.
  `t.After(u)` is `t > u`, `t.IsZero()` is `t = 0`.
* `driver.Value` values occurring in this file are all strings, so rows
  are `List String`.
* A Go panic (calling a method on a nil `Source` interface) and a
  diverging recursion are modelled by `Option`/fuel: a result of `none`
  means the operation does not complete normally.
* The `sync.RWMutex` field and the `Context map[string]interface{}`
  fields are not modelled: no claim mentions them and they carry no
  data used by the modelled operations.
-/

namespace QLBridge

/-- Heap address of a `*Schema` node. -/
abbrev SchemaId := Nat

/-- Opaque backend connection handle (`schema.Conn` is an interface the
catalog never inspects; we model it as a bare tag). -/
abbrev Conn := Nat

/-! ### Byte-level string helpers (Go `strings` / `hash/fnv` behaviour) -/

/-- ASCII model of Go `strings.ToLower` on one character: `'A'..'Z'` is
shifted to `'a'..'z'`, everything else is unchanged. -/
def chLower (c : Char) : Char :=
  if 65 ≤ c.toNat ∧ c.toNat ≤ 90 then Char.ofNat (c.toNat + 32) else c

/-- ASCII model of Go `strings.ToUpper` on one character. -/
def chUpper (c : Char) : Char :=
  if 97 ≤ c.toNat ∧ c.toNat ≤ 122 then Char.ofNat (c.toNat - 32) else c

/-- Model of Go `strings.ToLower` (ASCII range). -/
def strLower (s : String) : String := ⟨s.data.map chLower⟩

/-- Model of Go `strings.ToUpper` (ASCII range). -/
def strUpper (s : String) : String := ⟨s.data.map chUpper⟩

/-- UTF-8 byte encoding of one character (Go strings are UTF-8 byte
slices; needed to model `hash/fnv` over the table name). -/
def charUtf8 (c : Char) : List Nat :=
  let n := c.toNat
  if n < 128 then [n]
  else if n < 2048 then [192 + n / 64, 128 + n % 64]
  else if n < 65536 then [224 + n / 4096, 128 + (n / 64) % 64, 128 + n % 64]
  else [240 + n / 262144, 128 + (n / 4096) % 64, 128 + (n / 64) % 64, 128 + n % 64]

/-- The UTF-8 bytes of a string. -/
def strBytes (s : String) : List Nat := s.data.flatMap charUtf8

/-- Go `hash/fnv.New64` (FNV-1, 64 bit): for each byte the state is
multiplied by the FNV prime modulo `2^64` and xor-ed with the byte. -/
def fnv64 (s : String) : Nat :=
  (strBytes s).foldl (fun h b => ((h * 1099511628211) % (2 ^ 64)) ^^^ b) 14695981039346656037

/-- Bytewise (here: codepoint-wise, which agrees with UTF-8 byte order)
comparison of character lists, modelling Go string `<=`. -/
def listLeB : List Char → List Char → Bool
  | [], _ => true
  | _ :: _, [] => false
  | a :: as, b :: bs =>
    if a.toNat < b.toNat then true
    else if b.toNat < a.toNat then false
    else listLeB as bs

/-- Go string order as a proposition. -/
def strLe (a b : String) : Prop := listLeB a.data b.data = true

instance : DecidableRel strLe := fun a b => by unfold strLe; infer_instance

theorem listLeB_total (a b : List Char) : listLeB a b = true ∨ listLeB b a = true := by
  induction a generalizing b with
  | nil => left; rfl
  | cons x xs ih =>
    cases b with
    | nil => right; rfl
    | cons y ys =>
      by_cases h1 : x.toNat < y.toNat
      · left; simp [listLeB, h1]
      · by_cases h2 : y.toNat < x.toNat
        · right; simp [listLeB, h1, h2]
        · rcases ih ys with h | h
          · left; simp [listLeB, h1, h2, h]
          · right; simp [listLeB, h1, h2, h]

theorem listLeB_trans : ∀ {a b c : List Char},
    listLeB a b = true → listLeB b c = true → listLeB a c = true := by
  intro a
  induction a with
  | nil => intro b c _ _; rfl
  | cons x xs ih =>
    intro b c h1 h2
    match b, c with
    | [], _ => simp [listLeB] at h1
    | _ :: _, [] => simp [listLeB] at h2
    | y :: ys, z :: zs =>
      simp only [listLeB] at h1 h2 ⊢
      rcases Nat.lt_trichotomy x.toNat y.toNat with hxy | hxy | hxy
      · have hyz : y.toNat ≤ z.toNat := by
          by_contra hc
          rw [if_neg (by omega), if_pos (by omega)] at h2
          exact Bool.false_ne_true h2
        rw [if_pos (by omega)]
      · rw [if_neg (by omega), if_neg (by omega)] at h1
        rcases Nat.lt_trichotomy y.toNat z.toNat with hyz | hyz | hyz
        · rw [if_pos (by omega)]
        · rw [if_neg (by omega), if_neg (by omega)] at h2 ⊢
          exact ih h1 h2
        · rw [if_neg (by omega), if_pos (by omega)] at h2
          exact absurd h2 Bool.false_ne_true
      · rw [if_neg (by omega), if_pos (by omega)] at h1
        exact absurd h1 Bool.false_ne_true

instance : IsTotal String strLe := ⟨fun a b => listLeB_total a.data b.data⟩

instance : IsTrans String strLe := ⟨fun _ _ _ h1 h2 => listLeB_trans h1 h2⟩

/-- Model of Go `sort.Strings` (ascending bytewise order). -/
def sortStrings (l : List String) : List String := l.insertionSort strLe

/-- Modelled from the spec: `expr.LeftRight` (package `expr`, not under
`src/`) splits a qualified `schema.table` name on the dot separator and
returns (left part, right part, whether a non-empty left part was
found); a name without a dot comes back unchanged as the right part. -/
def splitFirstDot : List Char → Option (List Char × List Char)
  | [] => none
  | c :: rest =>
    if c = '.' then some ([], rest)
    else
      match splitFirstDot rest with
      | none => none
      | some (l, r) => some (c :: l, r)

/-- Modelled from the spec: `expr.LeftRight` on strings (see
`splitFirstDot`). -/
def leftRight (s : String) : String × String × Bool :=
  match splitFirstDot s.data with
  | none => ("", s, false)
  | some (l, r) => (⟨l⟩, ⟨r⟩, decide (l ≠ []))

/-! ### Association-list model of Go maps -/

/-- Lookup in a Go map (`v, ok := m[k]` with `ok` as `Option`). -/
def assocLookup {α : Type} : List (String × α) → String → Option α
  | [], _ => none
  | (k', v) :: rest, k => if k' = k then some v else assocLookup rest k

/-- Go map assignment `m[k] = v`: replace the binding if the key is
present, otherwise add it. -/
def assocInsert {α : Type} : List (String × α) → String → α → List (String × α)
  | [], k, v => [(k, v)]
  | (k', v') :: rest, k, v =>
    if k' = k then (k, v) :: rest else (k', v') :: assocInsert rest k v

/-- The key set of a Go map. -/
def assocKeys {α : Type} (l : List (String × α)) : List String := l.map Prod.fst

/-- Lookup through one level of nil pointers: a key that is absent or
bound to a nil pointer both read as Go `nil`. -/
def assocFind {α : Type} (l : List (String × Option α)) (k : String) : Option α :=
  match assocLookup l k with
  | some (some v) => some v
  | _ => none

/-! ### Entity model (`schema.go` type declarations) -/

/-- `SchemaRefreshInterval` default schema refresh interval:
`-time.Minute * 5`, i.e. minus five minutes in nanoseconds. -/
def SchemaRefreshInterval : Int := -(5 * 60 * 1000000000)

/-- Modelled from the spec: the external wire value type
(`value.ValueType`, an excluded collaborator) is kept as its
stringified form only, which is all the catalog reads from it. -/
structure ValueType where
  s : String
deriving DecidableEq

/-- `value.ValueType.String()` of the modelled value type. -/
def ValueType.String (v : ValueType) : String := v.s

/-- Modelled from the spec: the integer wire type; its stringified form. -/
def IntType : ValueType := ⟨"int"⟩

/-- Modelled from the spec: `TablePartition` (declared outside `src/`)
is the per-table partition descriptor; the catalog only reads its
`Table` name. -/
structure TablePartition where
  Table : String
  Keys : List String
deriving DecidableEq

/-- `Index`: a description of how fields should be indexed for a table. -/
structure Index where
  Name : String
  Fields : List String
  PrimaryKey : Bool
  HashPartition : List String
  PartitionSize : Int
deriving DecidableEq

/-- `ConfigSource`: backend data-source configuration (fields the
catalog reads; the JSON helper settings blob is not modelled). -/
structure ConfigSource where
  Name : String
  SourceType : String
  TablesToLoad : List String
  TableAliases : List (String × String)
  Hosts : List String
  Partitions : List TablePartition
  PartitionCt : Int
deriving DecidableEq

/-- `Field`: one column descriptor (Go struct `schema.Field`; the
`Context` map and pre-serialized `Data` payload carry no behaviour the
claims touch and `Data` is kept as raw bytes). -/
structure Field where
  idx : Nat
  row : List String
  Name : String
  Description : String
  Key : String
  Extra : String
  Data : List Nat
  Length : Nat
  Type' : ValueType
  NativeType : ValueType
  DefaultValueLength : Nat
  DefaultValue : Option String
  Indexed : Bool
  NoNulls : Bool
  Collation : String
  Roles : List String
  Indexes : List Index
deriving DecidableEq

/-- `Table`: definition of one queryable relation (Go struct
`schema.Table`; the back-reference `Schema *Schema` is a heap id, the
`Source` interface field is unused by every modelled operation and is
not carried). -/
structure Table where
  Name : String
  NameOriginal : String
  Parent : String
  FieldPositions : List (String × Nat)
  Fields : List Field
  FieldMap : List (String × Field)
  Schema : Option SchemaId
  Charset : Nat
  Partition : Option TablePartition
  PartitionCt : Int
  Indexes : List Index
  tblID : Nat
  cols : List String
  lastRefreshed : Int
  rows : List (List String)
deriving DecidableEq

/-- Modelled from the spec: the external `Source` collaborator
interface (declared outside `src/`): `Tables()`, `Table(name)` and
`Open(name)`.  `tableFn` returns `Except.error e` for a Go error,
`Except.ok none` for `(nil, nil)`; `openFn` returns the pair
`(conn, err)` of Go results. -/
structure Source where
  tables : List String
  tableFn : String → Except String (Option Table)
  openFn : String → Option Conn × Option String

/-- `Schema`: one catalog node (Go struct `schema.Schema`; all pointer
fields hold heap ids, the lock is not modelled). -/
structure Schema where
  Name : String
  Conf : Option ConfigSource
  DS : Option Source
  InfoSchema : Option SchemaId
  parent : Option SchemaId
  schemas : List (String × SchemaId)
  tableSchemas : List (String × Option SchemaId)
  tableMap : List (String × Option Table)
  tableNames : List String
  lastRefreshed : Int

/-- The heap of schema nodes: every `*Schema` value is an address into
this map. -/
structure Catalog where
  heap : SchemaId → Schema

/-- Overwrite one schema node in the heap. -/
def setS (c : Catalog) (i : SchemaId) (d : Schema) : Catalog :=
  ⟨fun j => if j = i then d else c.heap j⟩

theorem heap_setS_self (c : Catalog) (i : SchemaId) (d : Schema) :
    (setS c i d).heap i = d := by simp [setS]

theorem heap_setS_ne (c : Catalog) (i j : SchemaId) (d : Schema) (h : j ≠ i) :
    (setS c i d).heap j = c.heap j := by simp [setS, h]

/-! ### Constructors and small methods -/

/-- `NewSchemaSource`: create a new empty schema with given name and
source. -/
def NewSchemaSource (schemaName : String) (ds : Option Source) : Schema :=
  { Name := strLower schemaName
    Conf := none
    DS := ds
    InfoSchema := none
    parent := none
    schemas := []
    tableSchemas := []
    tableMap := []
    tableNames := []
    lastRefreshed := 0 }

/-- `NewSchema`: create a new empty schema with given name. -/
def NewSchema (schemaName : String) : Schema := NewSchemaSource schemaName none

/-- `NewTable`: create a new table for a schema (Go zero values for the
remaining fields; `t.init(nil)` leaves the schema reference nil). -/
def NewTable (table : String) : Table :=
  { Name := strLower table
    NameOriginal := table
    Parent := ""
    FieldPositions := []
    Fields := []
    FieldMap := []
    Schema := none
    Charset := 0
    Partition := none
    PartitionCt := 0
    Indexes := []
    tblID := 0
    cols := []
    lastRefreshed := 0
    rows := [] }

/-- `Schema.Since(dur)`: has this schema been refreshed within the
window described by `dur` (with `time.Now()` passed as `now`)? -/
def Schema.Since (m : Schema) (now dur : Int) : Bool :=
  if m.lastRefreshed = 0 then false
  else if m.lastRefreshed > now + dur then true
  else false

/-- `Schema.Current()`. -/
def Schema.Current (m : Schema) (now : Int) : Bool :=
  m.Since now SchemaRefreshInterval

/-- `Table.Since(dur)`. -/
def Table.Since (m : Table) (now dur : Int) : Bool :=
  if m.lastRefreshed = 0 then false
  else if m.lastRefreshed > now + dur then true
  else false

/-- `Table.Current()`. -/
def Table.Current (m : Table) (now : Int) : Bool :=
  m.Since now SchemaRefreshInterval

/-- `Schema.Tables()`: list of all tables for this schema. -/
def Schema.Tables (m : Schema) : List String := m.tableNames

/-- `Schema.Table(tableName)`: lowercase the name, look it up in the
flattened table map, on a miss retry with the right-hand part of a
`schema.table` qualified name, else fail. -/
def Schema.Table (m : Schema) (tableName : String) : Except String QLBridge.Table :=
  let tableName := strLower tableName
  match assocFind m.tableMap tableName with
  | some tbl => Except.ok tbl
  | none =>
    let lr := leftRight tableName
    let tableName := lr.2.1
    if lr.2.2 then
      match assocFind m.tableMap tableName with
      | some tbl => Except.ok tbl
      | none => Except.error ("Could not find that table: " ++ tableName)
    else Except.error ("Could not find that table: " ++ tableName)

/-- `Schema.OpenConn(tableName)`: resolve the owning schema in
`tableSchemas` (absent key, nil schema pointer and nil source all fail
alike), then delegate to its source's `Open`; a Go error is propagated,
and a nil connection without error is a distinct failure. -/
def Schema.OpenConn (c : Catalog) (mId : SchemaId) (tableName : String) :
    Except String Conn :=
  let tableName := strLower tableName
  let m := c.heap mId
  match assocLookup m.tableSchemas tableName with
  | none => Except.error ("Could not find a DataSource for that table \x22" ++ tableName ++ "\x22")
  | some none => Except.error ("Could not find a DataSource for that table \x22" ++ tableName ++ "\x22")
  | some (some schId) =>
    match (c.heap schId).DS with
    | none => Except.error ("Could not find a DataSource for that table \x22" ++ tableName ++ "\x22")
    | some ds =>
      match ds.openFn tableName with
      | (_, some err) => Except.error err
      | (none, none) => Except.error ("Could not establish a connection for " ++ tableName)
      | (some conn, none) => Except.ok conn

/-- Helper for `Table.AddField`: the Go loop that replaces the first
field with a matching name in place (and reports whether it found one). -/
def replaceFieldByName : List Field → Field → Bool × List Field
  | [], _ => (false, [])
  | f :: rest, fld =>
    if f.Name = fld.Name then (true, fld :: rest)
    else
      match replaceFieldByName rest fld with
      | (b, r) => (b, f :: r)

/-- `Table.AddField(fld)`: replace an existing field of the same name
in place, otherwise assign `fld.idx` from the current length and
append; either way `FieldMap[fld.Name]` is set to the added field. -/
def Table.AddField (m : Table) (fld : Field) : Table :=
  if (replaceFieldByName m.Fields fld).1 then
    { m with
      Fields := (replaceFieldByName m.Fields fld).2
      FieldMap := assocInsert m.FieldMap fld.Name fld }
  else
    { m with
      Fields := m.Fields ++ [{ fld with idx := m.Fields.length }]
      FieldMap := assocInsert m.FieldMap fld.Name { fld with idx := m.Fields.length } }

/-- `Table.HasField(name)`. -/
def Table.HasField (m : Table) (name : String) : Bool :=
  (assocLookup m.FieldMap name).isSome

/-- `Field.Id()`: the positional index assigned at first registration. -/
def Field.Id (m : Field) : Nat := m.idx

/-- `Table.Id()`. -/
def Table.Id (m : Table) : Nat := m.tblID

/-- The nine describe-header column names (`DescribeFullCols`). -/
def DescribeFullCols : List String :=
  ["Field", "Type", "Collation", "Null", "Key", "Default", "Extra", "Privileges", "Comment"]

/-- `Field.AsRow()`: memoized describe row.  The Go code allocates a
row of `len(DescribeFullCols) = 9` slots and assigns every slot
explicitly (slots 3,4,5,7 are assigned the empty string), which is the
literal below. -/
def Field.AsRow (m : Field) : Field × List String :=
  if m.row.length > 0 then (m, m.row)
  else
    let row : List String :=
      [m.Name, m.Type'.String, m.Collation, "", "", "", m.Extra, "", m.Description]
    ({ m with row := row }, row)

/-! ### Association-list lemmas -/

theorem assocLookup_insert_self {α : Type} (l : List (String × α)) (k : String) (v : α) :
    assocLookup (assocInsert l k v) k = some v := by
  induction l with
  | nil => simp [assocInsert, assocLookup]
  | cons p rest ih =>
    obtain ⟨a, b⟩ := p
    by_cases h : a = k
    · simp [assocInsert, assocLookup, h]
    · simp [assocInsert, assocLookup, h, ih]

theorem assocLookup_insert_ne {α : Type} (l : List (String × α)) (k k' : String) (v : α)
    (h : k' ≠ k) : assocLookup (assocInsert l k v) k' = assocLookup l k' := by
  have h' : ¬ (k = k') := Ne.symm h
  induction l with
  | nil => simp [assocInsert, assocLookup, h']
  | cons p rest ih =>
    obtain ⟨a, b⟩ := p
    by_cases ha : a = k
    · subst ha
      simp [assocInsert, assocLookup, h']
    · simp [assocInsert, assocLookup, ha, ih]

theorem assocFind_insert_self {α : Type} (l : List (String × Option α)) (k : String) (v : α) :
    assocFind (assocInsert l k (some v)) k = some v := by
  simp [assocFind, assocLookup_insert_self]

theorem mem_assocKeys_insert {α : Type} (l : List (String × α)) (k n : String) (v : α) :
    n ∈ assocKeys (assocInsert l k v) ↔ n ∈ assocKeys l ∨ n = k := by
  induction l with
  | nil => simp [assocInsert, assocKeys]
  | cons p rest ih =>
    obtain ⟨a, b⟩ := p
    by_cases ha : a = k
    · subst ha
      simp only [assocInsert, assocKeys, if_true, eq_self_iff_true, List.map_cons,
        List.mem_cons]
      tauto
    · simp only [assocInsert, assocKeys] at ih ⊢
      rw [if_neg ha]
      simp only [List.map_cons, List.mem_cons]
      rw [ih]
      tauto

theorem mem_assocKeys_insert_of_mem {α : Type} {l : List (String × α)} {n : String}
    (k : String) (v : α) (h : n ∈ assocKeys l) :
    n ∈ assocKeys (assocInsert l k v) :=
  (mem_assocKeys_insert l k n v).mpr (Or.inl h)

theorem self_mem_assocKeys_insert {α : Type} (l : List (String × α)) (k : String) (v : α) :
    k ∈ assocKeys (assocInsert l k v) :=
  (mem_assocKeys_insert l k k v).mpr (Or.inr rfl)

theorem mem_assocKeys_of_lookup {α : Type} {l : List (String × α)} {k : String} {v : α}
    (h : assocLookup l k = some v) : k ∈ assocKeys l := by
  induction l with
  | nil => simp [assocLookup] at h
  | cons p rest ih =>
    obtain ⟨a, b⟩ := p
    by_cases hp : a = k
    · simp [assocKeys, hp]
    · simp only [assocLookup, if_neg hp] at h
      have h2 := ih h
      simp only [assocKeys, List.map_cons, List.mem_cons]
      exact Or.inr h2

theorem lookup_isSome_of_mem_assocKeys {α : Type} {l : List (String × α)} {k : String}
    (h : k ∈ assocKeys l) : (assocLookup l k).isSome = true := by
  induction l with
  | nil => simp [assocKeys] at h
  | cons p rest ih =>
    obtain ⟨a, b⟩ := p
    by_cases hp : a = k
    · simp [assocLookup, hp]
    · simp only [assocKeys, List.map_cons, List.mem_cons] at h
      rcases h with h1 | h1
      · exact absurd h1.symm hp
      · simp [assocLookup, hp, ih h1]

/-! ### Sorting lemmas -/

theorem sortStrings_sorted (l : List String) : List.Sorted strLe (sortStrings l) :=
  List.sorted_insertionSort _ _

theorem sortStrings_perm (l : List String) : List.Perm (sortStrings l) l :=
  List.perm_insertionSort _ _

theorem mem_sortStrings {l : List String} {n : String} :
    n ∈ sortStrings l ↔ n ∈ l :=
  (sortStrings_perm l).mem_iff

theorem sortStrings_nodup {l : List String} (h : l.Nodup) : (sortStrings l).Nodup :=
  ((sortStrings_perm l).nodup_iff).mpr h

/-! ### Catalog tree operations (`schema.go` lines 298–425) -/

/-- The table value `loadTable` ends up inserting: the source's table
with its owning-schema reference bound to this node, and every
configured per-table partition descriptor whose `Table` name matches
applied in order (no nil check here — the last match wins). -/
def loadedTable (c : Catalog) (mId : SchemaId) (tableName : String) (tbl : Table) : Table :=
  match (c.heap mId).Conf with
  | some conf =>
    conf.Partitions.foldl
      (fun (t : Table) (tp : TablePartition) =>
        if tp.Table = tableName then { t with Partition := some tp } else t)
      { tbl with Schema := some mId }
  | none => { tbl with Schema := some mId }

/-- `Schema.loadTable(tableName)`: ask this node's source to describe
the table.  `none` models the Go panic of calling through a nil `DS`
interface; `some (c, false)` models an error return (the caller only
logs it); on success the loaded table (see `loadedTable`) is put into
this node's table and owner maps under the name the source returned. -/
def loadTable (c : Catalog) (mId : SchemaId) (tableName : String) :
    Option (Catalog × Bool) :=
  match (c.heap mId).DS with
  | none => none
  | some ds =>
    match ds.tableFn tableName with
    | Except.error _ => some (c, false)
    | Except.ok none => some (c, false)
    | Except.ok (some tbl) =>
      some (setS c mId
        { c.heap mId with
          tableMap := assocInsert (c.heap mId).tableMap
            (loadedTable c mId tableName tbl).Name (some (loadedTable c mId tableName tbl))
          tableSchemas := assocInsert (c.heap mId).tableSchemas
            (loadedTable c mId tableName tbl).Name (some mId) }, true)

/-- The tail of `Schema.addschemaForTableUnlocked`: after the name has
been appended to `tableNames` and the table value (possibly nil)
determined, register schema and table — but only when the key is not
already present in `tableMap`. -/
def asftuFinish (c : Catalog) (mId : SchemaId) (tableName : String) (ssId : SchemaId)
    (tbl : Option Table) : Catalog :=
  match assocLookup (c.heap mId).tableMap tableName with
  | some _ => c
  | none =>
    setS c mId
      { c.heap mId with
        tableSchemas := assocInsert (c.heap mId).tableSchemas tableName (some ssId)
        tableMap := assocInsert (c.heap mId).tableMap tableName tbl }

/-- The body of `addschemaForTableUnlocked` after the name has been
appended: fetch the table from `ss`'s map, loading it on demand from
this node's source when absent, then finish via `asftuFinish`.  `none`
models the nil-`DS` panic inside `loadTable`. -/
def asftuLoad (c1 : Catalog) (mId : SchemaId) (tableName : String)
    (ssId : SchemaId) : Option Catalog :=
  match assocFind ((c1.heap ssId).tableMap) tableName with
  | some t => some (asftuFinish c1 mId tableName ssId (some t))
  | none =>
    match loadTable c1 mId tableName with
    | none => none
    | some (c2, true) =>
      some (asftuFinish c2 mId tableName ssId (assocFind ((c2.heap ssId).tableMap) tableName))
    | some (c2, false) => some (asftuFinish c2 mId tableName ssId none)

/-- `Schema.addschemaForTableUnlocked(tableName, ss)`: if the name is
not yet tracked, append it to the name list (re-sorted), then run the
fetch/load/register tail (`asftuLoad`). -/
def addschemaForTableUnlocked (c : Catalog) (mId : SchemaId) (tableName : String)
    (ssId : SchemaId) : Option Catalog :=
  if tableName ∈ (c.heap mId).tableNames then some c
  else
    asftuLoad
      (setS c mId
        { c.heap mId with tableNames := sortStrings ((c.heap mId).tableNames ++ [tableName]) })
      mId tableName ssId

theorem asftuLoad_isSome (c1 : Catalog) (mId : SchemaId) (tableName : String)
    (ssId : SchemaId) (t : Table)
    (h : assocFind ((c1.heap ssId).tableMap) tableName = some t) :
    (asftuLoad c1 mId tableName ssId).isSome = true := by
  unfold asftuLoad
  rw [h]
  rfl

theorem addschemaForTableUnlocked_isSome (c : Catalog) (mId : SchemaId)
    (tableName : String) (ssId : SchemaId) (t : Table)
    (h : assocFind ((c.heap ssId).tableMap) tableName = some t) :
    (addschemaForTableUnlocked c mId tableName ssId).isSome = true := by
  unfold addschemaForTableUnlocked
  split
  · rfl
  · apply asftuLoad_isSome _ _ _ _ t
    by_cases hs : ssId = mId
    · subst hs
      rw [heap_setS_self]
      exact h
    · rw [heap_setS_ne _ _ _ _ hs]
      exact h

/-- The loop body of `addTable` that applies a configured per-table
partition descriptor to a table that does not already carry one. -/
def addTablePartitionStep (t : Table) (pt : TablePartition) : Table :=
  if t.Name = pt.Table ∧ t.Partition = none then { t with Partition := some pt } else t

/-- `Schema.addTable(tbl)` (the body of the exported `AddTable`):
assign the FNV-1 64-bit id of the (not re-lowercased) name, apply the
catalog-wide partition count when positive — otherwise apply matching
per-table partition descriptors from configuration to a table that does
not already carry one — bind the schema back-reference (`tbl.init(m)`),
insert into `tableMap` and register the name.  The Go code stores the
`*Table` pointer into `tableMap` before mutating `tbl`; the map entry
therefore reflects the fully mutated table, which is the value inserted
here.  Returns the updated catalog and the mutated table. -/
def addTable (c : Catalog) (mId : SchemaId) (tbl0 : Table) : Catalog × Table :=
  let tbl1 := { tbl0 with tblID := fnv64 tbl0.Name }
  let tbl2 :=
    match (c.heap mId).Conf with
    | some conf =>
      if conf.PartitionCt > 0 then { tbl1 with PartitionCt := conf.PartitionCt }
      else conf.Partitions.foldl addTablePartitionStep tbl1
    | none => tbl1
  let tbl := { tbl2 with Schema := some mId }
  Prod.mk
    ((addschemaForTableUnlocked
        (setS c mId
          { c.heap mId with
            tableMap := assocInsert (c.heap mId).tableMap tbl.Name (some tbl) })
        mId tbl.Name mId).get
      (addschemaForTableUnlocked_isSome _ mId tbl.Name mId tbl
        (by rw [heap_setS_self]; exact assocFind_insert_self _ _ _)))
    tbl

/-- `Schema.AddTable(tbl)`: the exported entry point. -/
def Schema.AddTable (c : Catalog) (mId : SchemaId) (tbl : QLBridge.Table) :
    Catalog × QLBridge.Table :=
  addTable c mId tbl

/-- The loop of `addChildSchema` copying the child's current `tableMap`
entries into the parent's `tableSchemas` and `tableMap`. -/
def copyChildTables (mId childId : SchemaId) :
    Catalog → List (String × Option Table) → Catalog
  | c, [] => c
  | c, (tn, tb) :: rest =>
    copyChildTables mId childId
      (setS c mId
        { c.heap mId with
          tableSchemas := assocInsert (c.heap mId).tableSchemas tn (some childId)
          tableMap := assocInsert (c.heap mId).tableMap tn tb })
      rest

/-- `Schema.addChildSchema(child)`: record the child under its name,
point the child's parent back-reference here, and copy a point-in-time
snapshot of the child's table map into this node's flattened indexes
(`tableNames` is not touched). -/
def addChildSchema (c : Catalog) (mId childId : SchemaId) : Catalog :=
  let c1 := setS c mId
    { c.heap mId with
      schemas := assocInsert (c.heap mId).schemas (c.heap childId).Name childId }
  let c2 := setS c1 childId { c1.heap childId with parent := some mId }
  copyChildTables mId childId c2 ((c2.heap childId).tableMap)

/-- First loop of `refreshSchemaUnlocked`: register every table name
this node's own source lists. -/
def refreshOwn (c : Catalog) (mId : SchemaId) : List String → Option Catalog
  | [] => some c
  | n :: rest =>
    match addschemaForTableUnlocked c mId n mId with
    | none => none
    | some c' => refreshOwn c' mId rest

/-- Inner loop of `refreshSchemaUnlocked`: register every table name a
(just refreshed) child currently lists. -/
def refreshChildTables (mId ssId : SchemaId) :
    Catalog → List String → Option Catalog
  | c, [] => some c
  | c, n :: rest =>
    match addschemaForTableUnlocked c mId n ssId with
    | none => none
    | some c' => refreshChildTables mId ssId c' rest

/-- Child loop of `refreshSchemaUnlocked`, parameterized by the
recursive call (applied at one fuel level lower): refresh each child,
then pull its table names into this node. -/
def refreshChildrenAux (recur : Catalog → SchemaId → Option Catalog) (mId : SchemaId) :
    Catalog → List (String × SchemaId) → Option Catalog
  | c, [] => some c
  | c, (_, ssId) :: rest =>
    match recur c ssId with
    | none => none
    | some c' =>
      match refreshChildTables mId ssId c' ((c'.heap ssId).tableNames) with
      | none => none
      | some c'' => refreshChildrenAux recur mId c'' rest

/-- `Schema.refreshSchemaUnlocked()`: walk this node's own source
table list, then recursively refresh each child and pull its tables
in.  The Go recursion can diverge on a cyclic schema graph (and panics
on a nil `DS`); both are modelled by the fuel/`none` discipline. -/
def refreshSchemaUnlocked : Nat → Catalog → SchemaId → Option Catalog
  | 0, _, _ => none
  | fuel + 1, c, mId =>
    match (c.heap mId).DS with
    | none => none
    | some ds =>
      match refreshOwn c mId ds.tables with
      | none => none
      | some c' =>
        refreshChildrenAux (refreshSchemaUnlocked fuel) mId c' ((c'.heap mId).schemas)

/-- One structural mutation of the catalog tree, as named by claim C1. -/
inductive Op : Type
  | addTable (mId : SchemaId) (tbl : Table)
  | addChild (mId childId : SchemaId)
  | refresh (mId : SchemaId) (fuel : Nat)

/-- Apply one operation (`none` models a panic / non-termination). -/
def applyOp (c : Catalog) : Op → Option Catalog
  | Op.addTable mId tbl => some (addTable c mId tbl).1
  | Op.addChild mId childId => some (addChildSchema c mId childId)
  | Op.refresh mId fuel => refreshSchemaUnlocked fuel c mId

/-- Apply a finite sequence of operations. -/
def applyOps : Catalog → List Op → Option Catalog
  | c, [] => some c
  | c, op :: rest =>
    match applyOp c op with
    | none => none
    | some c' => applyOps c' rest

/-! ## Claim C6: staleness checks -/

theorem sinceAux (lr now dur : Int) :
    (if lr = 0 then false else if lr > now + dur then true else false) = true ↔
      (lr ≠ 0 ∧ lr > now + dur) := by
  by_cases h : lr = 0
  · simp [h]
  · by_cases h2 : lr > now + dur
    · simp [h, h2]
    · simp [h, h2]

/-- C6: for every Schema (and Table) and every duration `dur`,
`Since dur` returns true iff the last-refresh timestamp is non-zero and
lies after `now + dur`; `Current` equals `Since` applied to the
configured refresh interval `SchemaRefreshInterval`, whose default is
negative — minus five minutes (in nanoseconds). -/
theorem c6_since_current (m : Schema) (t : Table) (now dur : Int) :
    (m.Since now dur = true ↔ (m.lastRefreshed ≠ 0 ∧ m.lastRefreshed > now + dur)) ∧
    m.Current now = m.Since now SchemaRefreshInterval ∧
    (t.Since now dur = true ↔ (t.lastRefreshed ≠ 0 ∧ t.lastRefreshed > now + dur)) ∧
    t.Current now = t.Since now SchemaRefreshInterval ∧
    SchemaRefreshInterval = -(5 * 60 * 1000000000) ∧ SchemaRefreshInterval < 0 :=
  ⟨sinceAux m.lastRefreshed now dur, rfl,
   sinceAux t.lastRefreshed now dur, rfl, rfl, by decide⟩

/-! ## Claim C9: describe-row shape -/

/-- C9: a Field named `"id"` with the integer wire type (and a not yet
materialized row cache, as in the spec's fresh composite literal)
produces a 9-element describe row: element 0 is the name, element 1 the
stringified type, elements 3, 4, 5, 7 are empty strings, and elements
2, 6, 8 are the field's Collation, Extra and Description. -/
theorem c9_asrow (f : Field) (hrow : f.row = []) (hname : f.Name = "id")
    (htype : f.Type' = IntType) :
    (f.AsRow).2 = ["id", "int", f.Collation, "", "", "", f.Extra, "", f.Description] ∧
    (f.AsRow).2.length = 9 := by
  unfold Field.AsRow
  rw [hrow]
  simp [hname, htype, IntType, ValueType.String]

/-- A bare field value used to instantiate witnesses. -/
def baseField (nm : String) (i : Nat) : Field :=
  { idx := i
    row := []
    Name := nm
    Description := ""
    Key := ""
    Extra := ""
    Data := []
    Length := 0
    Type' := ⟨"string"⟩
    NativeType := ⟨"string"⟩
    DefaultValueLength := 0
    DefaultValue := none
    Indexed := false
    NoNulls := false
    Collation := ""
    Roles := []
    Indexes := [] }

def c9Field : Field :=
  { baseField "id" 0 with Type' := IntType, Collation := "utf8", Extra := "e", Description := "d" }

theorem c9_asrow_witness :
    (c9Field.AsRow).2 = ["id", "int", "utf8", "", "", "", "e", "", "d"] ∧
    (c9Field.AsRow).2.length = 9 :=
  c9_asrow c9Field rfl rfl rfl

/-! ## Claims C3 and C10: field upsert -/

theorem replaceFieldByName_not_found (l : List Field) (f : Field)
    (h : ∀ g ∈ l, g.Name ≠ f.Name) : replaceFieldByName l f = (false, l) := by
  induction l with
  | nil => rfl
  | cons x xs ih =>
    simp only [replaceFieldByName]
    rw [if_neg (h x (List.mem_cons_self x xs)),
      ih (fun g hg => h g (List.mem_cons_of_mem x hg))]

theorem replaceFieldByName_found (pre post : List Field) (old fld : Field)
    (hpre : ∀ g ∈ pre, g.Name ≠ fld.Name) (hold : old.Name = fld.Name) :
    replaceFieldByName (pre ++ old :: post) fld = (true, pre ++ fld :: post) := by
  induction pre with
  | nil => simp only [List.nil_append, replaceFieldByName, if_pos hold]
  | cons x xs ih =>
    simp only [List.cons_append, replaceFieldByName, List.append_eq]
    rw [if_neg (hpre x (List.mem_cons_self x xs)),
      ih (fun g hg => hpre g (List.mem_cons_of_mem x hg))]

/-- C3: `AddField` upserts by name preserving the slot: on a table with
field list `[A, B, C]` (ordinals 0, 1, 2 being the list positions),
adding `B'` with `B`'s name replaces slot 1 in place, giving
`[A, B', C]` with `A` and `C` untouched; and a genuinely new field `D`
is appended with its ordinal assigned from the list length — the only
place `AddField` ever assigns an ordinal. -/
theorem c3_addfield_upsert (tb : Table) (A B C B' D : Field)
    (hf : tb.Fields = [A, B, C])
    (hAB : A.Name ≠ B.Name)
    (hname : B'.Name = B.Name)
    (hD : D.Name ≠ A.Name ∧ D.Name ≠ B.Name ∧ D.Name ≠ C.Name) :
    (tb.AddField B').Fields = [A, B', C] ∧
    (tb.AddField D).Fields = [A, B, C, { D with idx := 3 }] := by
  constructor
  · have hrep := replaceFieldByName_found [A] [C] B B'
      (by
        intro g hg
        rw [List.mem_singleton] at hg
        subst hg
        rw [hname]
        exact hAB)
      hname.symm
    unfold Table.AddField
    rw [hf]
    simp only [List.singleton_append] at hrep
    rw [hrep]
    simp
  · have hrep := replaceFieldByName_not_found [A, B, C] D
      (by
        intro g hg
        rcases hD with ⟨h1, h2, h3⟩
        rcases List.mem_cons.mp hg with h | hg
        · subst h; exact fun e => h1 e.symm
        rcases List.mem_cons.mp hg with h | hg
        · subst h; exact fun e => h2 e.symm
        rw [List.mem_singleton] at hg
        subst hg
        exact fun e => h3 e.symm)
    unfold Table.AddField
    rw [hf, hrep]
    simp

def c3A : Field := baseField "a" 0
def c3B : Field := baseField "b" 1
def c3C : Field := baseField "c" 2
def c3B' : Field := { baseField "b" 0 with Description := "replacement" }
def c3D : Field := baseField "d" 0
def c3Tbl : Table :=
  { NewTable "t" with
    Fields := [c3A, c3B, c3C]
    FieldMap := [("a", c3A), ("b", c3B), ("c", c3C)] }

theorem c3_addfield_upsert_witness :
    (c3Tbl.AddField c3B').Fields = [c3A, c3B', c3C] ∧
    (c3Tbl.AddField c3D).Fields = [c3A, c3B, c3C, { c3D with idx := 3 }] :=
  c3_addfield_upsert c3Tbl c3A c3B c3C c3B' c3D rfl (by decide)
    rfl ⟨by decide, by decide, by decide⟩

/-- C10: when `AddField` replaces an existing field of the same name,
the replacement keeps the slot of the replaced field but `AddField`
never assigns its internal ordinal: the stored value is `fld` itself
(so `Field.Id` returns whatever `idx` the replacement already carried —
zero for a freshly constructed field — not the replaced field's
ordinal). -/
theorem c10_replacement_keeps_own_idx (tb : Table) (pre post : List Field)
    (old fld : Field)
    (hf : tb.Fields = pre ++ old :: post)
    (hpre : ∀ g ∈ pre, g.Name ≠ fld.Name)
    (hold : old.Name = fld.Name) :
    (tb.AddField fld).Fields = pre ++ fld :: post ∧
    assocLookup (tb.AddField fld).FieldMap fld.Name = some fld ∧
    fld.Id = fld.idx := by
  have hrep := replaceFieldByName_found pre post old fld hpre hold
  unfold Table.AddField
  rw [hf, hrep]
  simp [assocLookup_insert_self, Field.Id]

def c10A : Field := baseField "a" 0
def c10B : Field := baseField "b" 1
def c10C : Field := baseField "c" 2
def c10B' : Field := { baseField "b" 0 with Description := "fresh replacement" }
def c10Tbl : Table :=
  { NewTable "u" with
    Fields := [c10A, c10B, c10C]
    FieldMap := [("a", c10A), ("b", c10B), ("c", c10C)] }

theorem c10_replacement_keeps_own_idx_witness :
    ((c10Tbl.AddField c10B').Fields = [c10A, c10B', c10C] ∧
      assocLookup (c10Tbl.AddField c10B').FieldMap "b" = some c10B' ∧
      c10B'.Id = c10B'.idx) ∧
    c10B'.Id = 0 ∧ c10B.idx = 1 :=
  ⟨c10_replacement_keeps_own_idx c10Tbl [c10A] [c10C] c10B c10B' rfl
      (by
        intro g hg
        rw [List.mem_singleton] at hg
        subst hg
        decide)
      rfl,
    rfl, rfl⟩

/-! ## Claims C8 and C7: case-insensitive and qualified lookup -/

theorem toNat_ofNat_valid {n : Nat} (h : n.isValidChar) : (Char.ofNat n).toNat = n := by
  rw [Char.ofNat, dif_pos h]
  rfl

theorem chLower_chLower (c : Char) : chLower (chLower c) = chLower c := by
  unfold chLower
  by_cases h : 65 ≤ c.toNat ∧ c.toNat ≤ 90
  · rw [if_pos h]
    have ht : (Char.ofNat (c.toNat + 32)).toNat = c.toNat + 32 :=
      toNat_ofNat_valid (Or.inl (by omega))
    have hc : ¬ (65 ≤ (Char.ofNat (c.toNat + 32)).toNat ∧
        (Char.ofNat (c.toNat + 32)).toNat ≤ 90) := by
      rw [ht]; omega
    rw [if_neg hc]
  · rw [if_neg h, if_neg h]

theorem chLower_chUpper (c : Char) : chLower (chUpper c) = chLower c := by
  unfold chUpper
  by_cases h : 97 ≤ c.toNat ∧ c.toNat ≤ 122
  · rw [if_pos h]
    have ht : (Char.ofNat (c.toNat - 32)).toNat = c.toNat - 32 :=
      toNat_ofNat_valid (Or.inl (by omega))
    have hc1 : 65 ≤ (Char.ofNat (c.toNat - 32)).toNat ∧
        (Char.ofNat (c.toNat - 32)).toNat ≤ 90 := by
      rw [ht]; omega
    have hc2 : ¬ (65 ≤ c.toNat ∧ c.toNat ≤ 90) := by omega
    unfold chLower
    rw [if_pos hc1, if_neg hc2, ht]
    have harith : c.toNat - 32 + 32 = c.toNat := by omega
    rw [harith, Char.ofNat_toNat]
  · rw [if_neg h]

theorem listMapExt {f g : Char → Char} (h : ∀ a, f a = g a) :
    ∀ l : List Char, l.map f = l.map g := by
  intro l
  induction l with
  | nil => rfl
  | cons x xs ih => simp [h x, ih]

theorem strLower_strLower (s : String) : strLower (strLower s) = strLower s := by
  unfold strLower
  apply congrArg String.mk
  show (s.data.map chLower).map chLower = s.data.map chLower
  rw [List.map_map]
  exact listMapExt (fun a => chLower_chLower a) s.data

theorem strLower_strUpper (s : String) : strLower (strUpper s) = strLower s := by
  unfold strLower strUpper
  apply congrArg String.mk
  show (s.data.map chUpper).map chLower = s.data.map chLower
  rw [List.map_map]
  exact listMapExt (fun a => chLower_chUpper a) s.data

/-- C8: table lookup lowercases the name first, so `Table T`,
`Table (lowercase T)` and `Table (uppercase T)` all return the same
result — the same table on a hit, and the same failure on a miss. -/
theorem c8_case_insensitive (m : Schema) (name : String) :
    m.Table (strLower name) = m.Table name ∧
    m.Table (strUpper name) = m.Table name := by
  constructor
  · simp only [Schema.Table, strLower_strLower]
  · simp only [Schema.Table, strLower_strUpper]

/-- C7: with a table registered under `"orders"` (and no entry for the
qualified string itself), `Table "sales.orders"` resolves to the same
table as `Table "orders"`; and a lowercase qualified name whose
right-hand part is not registered fails with the not-found error. -/
theorem c7_qualified_lookup (m : Schema) (t : Table) (q l r : String)
    (hq0 : assocFind m.tableMap "sales.orders" = none)
    (ho : assocFind m.tableMap "orders" = some t)
    (hlow : strLower q = q)
    (hlr : leftRight q = (l, r, true))
    (hqn : assocFind m.tableMap q = none)
    (hrn : assocFind m.tableMap r = none) :
    m.Table "sales.orders" = Except.ok t ∧
    m.Table "orders" = Except.ok t ∧
    m.Table q = Except.error ("Could not find that table: " ++ r) := by
  refine ⟨?_, ?_, ?_⟩
  · simp only [Schema.Table]
    rw [show strLower "sales.orders" = "sales.orders" from rfl, hq0]
    rw [show leftRight "sales.orders" = ("sales", "orders", true) from rfl]
    rw [ho]
    rfl
  · simp only [Schema.Table]
    rw [show strLower "orders" = "orders" from rfl, ho]
  · simp only [Schema.Table]
    rw [hlow, hqn, hlr]
    rw [hrn]
    rfl

def c7Tbl : Table := NewTable "orders"

def c7Schema : Schema :=
  { NewSchema "s" with
    tableMap := [("orders", some c7Tbl)]
    tableNames := ["orders"] }

theorem c7_qualified_lookup_witness :
    c7Schema.Table "sales.orders" = Except.ok c7Tbl ∧
    c7Schema.Table "orders" = Except.ok c7Tbl ∧
    c7Schema.Table "sales.nope" = Except.error "Could not find that table: nope" :=
  c7_qualified_lookup c7Schema c7Tbl "sales.nope" "sales" "nope"
    rfl rfl rfl rfl rfl rfl


/-! ## Claim C5: OpenConn error conditions -/

/-- C5: `OpenConn` succeeds with connection `conn` exactly when the
owner map resolves the (lowercased) name to a non-nil schema with a
live source whose `Open` returned `(conn, nil)`; it returns an error
exactly when the owner cannot be resolved (absent key, nil schema
entry, or an owner without source), or `Open` returned an error, or
`Open` returned a nil connection with no error. -/
theorem c5_openconn (c : Catalog) (mId : SchemaId) (name : String) :
    (∀ conn : Conn,
      Schema.OpenConn c mId name = Except.ok conn ↔
        (∃ schId ds,
          assocLookup (c.heap mId).tableSchemas (strLower name) = some (some schId) ∧
          (c.heap schId).DS = some ds ∧
          ds.openFn (strLower name) = (some conn, none))) ∧
    ((∃ e, Schema.OpenConn c mId name = Except.error e) ↔
      ((∀ schId, assocLookup (c.heap mId).tableSchemas (strLower name) = some (some schId) →
          (c.heap schId).DS = none) ∨
       (∃ schId ds e,
          assocLookup (c.heap mId).tableSchemas (strLower name) = some (some schId) ∧
          (c.heap schId).DS = some ds ∧
          (ds.openFn (strLower name)).2 = some e) ∨
       (∃ schId ds,
          assocLookup (c.heap mId).tableSchemas (strLower name) = some (some schId) ∧
          (c.heap schId).DS = some ds ∧
          ds.openFn (strLower name) = (none, none)))) := by
  simp only [Schema.OpenConn]
  cases h : assocLookup (c.heap mId).tableSchemas (strLower name) with
  | none =>
    constructor
    · intro conn
      simp
    · simp
  | some oschId =>
    cases oschId with
    | none =>
      constructor
      · intro conn
        simp
      · simp
    | some schId =>
      simp only []
      cases hds : (c.heap schId).DS with
      | none =>
        constructor
        · intro conn
          constructor
          · intro hok
            exact absurd hok (by simp)
          · rintro ⟨s', ds', hl, hd, _⟩
            rw [Option.some_inj, Option.some_inj] at hl
            subst hl
            rw [hds] at hd
            exact absurd hd (by simp)
        · constructor
          · intro _
            left
            intro s' hl
            rw [Option.some_inj, Option.some_inj] at hl
            subst hl
            exact hds
          · intro _
            exact ⟨_, rfl⟩
      | some ds =>
        simp only []
        rcases hopen : ds.openFn (strLower name) with ⟨co, eo⟩
        cases eo with
        | some e =>
          constructor
          · intro conn
            constructor
            · intro hok
              cases co <;> simp at hok
            · rintro ⟨s', ds', hl, hd, hop⟩
              rw [Option.some_inj, Option.some_inj] at hl
              subst hl
              rw [hds, Option.some_inj] at hd
              subst hd
              rw [hopen] at hop
              exact absurd (congrArg Prod.snd hop) (by simp)
          · constructor
            · intro _
              right
              left
              exact ⟨schId, ds, e, rfl, hds, by rw [hopen]⟩
            · intro _
              refine ⟨e, ?_⟩
              cases co <;> rfl
        | none =>
          cases co with
          | none =>
            constructor
            · intro conn
              constructor
              · intro hok
                exact absurd hok (by simp)
              · rintro ⟨s', ds', hl, hd, hop⟩
                rw [Option.some_inj, Option.some_inj] at hl
                subst hl
                rw [hds, Option.some_inj] at hd
                subst hd
                rw [hopen] at hop
                exact absurd (congrArg Prod.fst hop) (by simp)
            · constructor
              · intro _
                right
                right
                exact ⟨schId, ds, rfl, hds, hopen⟩
              · intro _
                exact ⟨_, rfl⟩
          | some conn0 =>
            constructor
            · intro conn
              constructor
              · intro hok
                rw [show (Except.ok conn0 : Except String Conn) = Except.ok conn ↔ conn0 = conn
                    from ⟨fun hh => by injection hh, fun hh => by rw [hh]⟩] at hok
                subst hok
                exact ⟨schId, ds, rfl, hds, hopen⟩
              · rintro ⟨s', ds', hl, hd, hop⟩
                rw [Option.some_inj, Option.some_inj] at hl
                subst hl
                rw [hds, Option.some_inj] at hd
                subst hd
                rw [hopen] at hop
                have hco : some conn0 = some conn := congrArg Prod.fst hop
                rw [Option.some_inj] at hco
                rw [hco]
            · constructor
              · rintro ⟨e, he⟩
                exact absurd he (by simp)
              · intro hr
                rcases hr with hr | ⟨s', ds', e, hl, hd, hop⟩ | ⟨s', ds', hl, hd, hop⟩
                · have := hr schId rfl
                  rw [hds] at this
                  exact absurd this (by simp)
                · rw [Option.some_inj, Option.some_inj] at hl
                  subst hl
                  rw [hds, Option.some_inj] at hd
                  subst hd
                  rw [hopen] at hop
                  exact absurd hop (by simp)
                · rw [Option.some_inj, Option.some_inj] at hl
                  subst hl
                  rw [hds, Option.some_inj] at hd
                  subst hd
                  rw [hopen] at hop
                  exact absurd (congrArg Prod.fst hop) (by simp)

/-! ## Claim C2: partition inheritance (amended) -/

theorem addTablePartitionFold (l : List TablePartition) (t : Table) (p : TablePartition)
    (h : t.Partition = some p) : (l.foldl addTablePartitionStep t).Partition = some p := by
  induction l generalizing t with
  | nil => exact h
  | cons pt rest ih =>
    simp only [List.foldl_cons]
    apply ih
    unfold addTablePartitionStep
    rw [if_neg (by rw [h]; simp)]
    exact h

/-- C2 (amended): with a configuration present, a positive catalog-wide
`PartitionCt` is assigned to the table by `AddTable` unconditionally —
in particular a table with no per-table override gets `PartitionCt = 4`
when the catalog says 4 — while a table that already carries an
explicit partition descriptor keeps that descriptor (the configured
per-table descriptors, consulted only when no positive catalog-wide
count is set, never overwrite it). -/
theorem c2_partition (c : Catalog) (mId : SchemaId) (tbl : Table) (conf : ConfigSource)
    (p : TablePartition) (hconf : (c.heap mId).Conf = some conf) :
    (conf.PartitionCt > 0 → ((addTable c mId tbl).2).PartitionCt = conf.PartitionCt) ∧
    (tbl.Partition = some p → ((addTable c mId tbl).2).Partition = some p) := by
  simp only [addTable, hconf]
  constructor
  · intro hpc
    rw [if_pos hpc]
  · intro hp
    by_cases hpc : conf.PartitionCt > 0
    · rw [if_pos hpc]
      exact hp
    · rw [if_neg hpc]
      exact addTablePartitionFold conf.Partitions _ p hp

def c2pt : TablePartition := ⟨"t", []⟩

def c2conf : ConfigSource :=
  { Name := "db"
    SourceType := "x"
    TablesToLoad := []
    TableAliases := []
    Hosts := []
    Partitions := [c2pt]
    PartitionCt := 4 }

def c2cat : Catalog := ⟨fun _ => { NewSchema "db" with Conf := some c2conf }⟩

def c2tblA : Table := { NewTable "t" with Partition := some c2pt }

def c2tblB : Table := NewTable "t"

/-- C2 counterexample: the table `c2tblA` already carries the explicit
partition descriptor matching its name and had `PartitionCt = 0`, yet
`AddTable` under a catalog-wide count of 4 still assigns
`PartitionCt = 4` — the catalog-wide count, not the explicit
descriptor, wins; moreover the configured per-table descriptor is not
even applied to a bare table (`c2tblB`) when the count is positive. -/
theorem c2_partition_counterexample :
    c2tblA.Partition = some c2pt ∧
    c2tblA.PartitionCt = 0 ∧
    ((addTable c2cat 0 c2tblA).2).PartitionCt = 4 ∧
    ((addTable c2cat 0 c2tblB).2).Partition = none := by
  refine ⟨rfl, rfl, rfl, rfl⟩

theorem c2_partition_witness :
    (c2conf.PartitionCt > 0 ∧ ((addTable c2cat 0 c2tblB).2).PartitionCt = c2conf.PartitionCt) ∧
    (c2tblA.Partition = some c2pt ∧ ((addTable c2cat 0 c2tblA).2).Partition = some c2pt) :=
  ⟨⟨by decide, (c2_partition c2cat 0 c2tblB c2conf c2pt rfl).1 (by decide)⟩,
   ⟨rfl, (c2_partition c2cat 0 c2tblA c2conf c2pt rfl).2 rfl⟩⟩

/-! ## Claim C4: snapshot semantics of child attachment -/

def c4Source : Source := ⟨[], fun _ => Except.ok none, fun _ => (none, none)⟩

def c4cat0 : Catalog :=
  ⟨fun i =>
    if i = 0 then NewSchemaSource "p" (some c4Source)
    else if i = 1 then NewSchemaSource "c" (some c4Source)
    else NewSchema "unused"⟩

def c4t1 : Table := NewTable "t1"

def c4t2 : Table := NewTable "t2"

def c4cat1 : Catalog := (addTable c4cat0 1 c4t1).1

def c4cat2 : Catalog := addChildSchema c4cat1 0 1

def c4cat3 : Catalog := (addTable c4cat2 1 c4t2).1

def c4cat4 : Catalog := (refreshSchemaUnlocked 2 c4cat3 0).getD c4cat3

/-- C4: attaching child 1 (holding `t1`) to parent 0 copies a
point-in-time snapshot: `t1` resolves through the parent, a table `t2`
added to the child afterwards does not (NotFound), and after an
explicit refresh of the parent `t2` resolves. -/
theorem c4_snapshot_semantics :
    ((c4cat2.heap 0).Table "t1").toOption.isSome = true ∧
    (c4cat3.heap 0).Table "t2" = Except.error "Could not find that table: t2" ∧
    ((c4cat3.heap 0).Table "t1").toOption.isSome = true ∧
    refreshSchemaUnlocked 2 c4cat3 0 = some c4cat4 ∧
    ((c4cat4.heap 0).Table "t2").toOption.isSome = true ∧
    ((c4cat4.heap 0).Table "t1").toOption.isSome = true := by
  refine ⟨rfl, rfl, rfl, rfl, rfl, rfl⟩


/-! ## Claim C1: index-consistency invariant (amended) -/

/-- Every name in `tableNames` is a key of `tableMap`. -/
def namesSub (d : Schema) : Prop :=
  ∀ n ∈ d.tableNames, n ∈ assocKeys d.tableMap

/-- Every key of `tableSchemas` is a key of `tableMap`. -/
def schemasSub (d : Schema) : Prop :=
  ∀ n ∈ assocKeys d.tableSchemas, n ∈ assocKeys d.tableMap

/-- The index invariant one schema node actually maintains:
`tableNames` is sorted ascending and duplicate-free, and both the name
set of `tableNames` and the key set of `tableSchemas` are contained in
the key set of `tableMap`. -/
def SchemaInv (d : Schema) : Prop :=
  List.Sorted strLe d.tableNames ∧ d.tableNames.Nodup ∧ namesSub d ∧ schemasSub d

/-- The invariant at every node of the catalog. -/
def CatInv (c : Catalog) : Prop := ∀ i, SchemaInv (c.heap i)

theorem schemaInv_transport (d d' : Schema)
    (h1 : d'.tableNames = d.tableNames)
    (h2 : ∀ n, n ∈ assocKeys d.tableMap → n ∈ assocKeys d'.tableMap)
    (h3 : schemasSub d → schemasSub d')
    (h : SchemaInv d) : SchemaInv d' := by
  obtain ⟨hs, hn, hns, hss⟩ := h
  refine ⟨h1 ▸ hs, h1 ▸ hn, ?_, h3 hss⟩
  intro n hn2
  rw [h1] at hn2
  exact h2 n (hns n hn2)

theorem loadTable_keeps (c c2 : Catalog) (mId : SchemaId) (tn : String) (b : Bool)
    (h : loadTable c mId tn = some (c2, b)) :
    (∀ i, (c2.heap i).tableNames = (c.heap i).tableNames) ∧
    (∀ i n, n ∈ assocKeys (c.heap i).tableMap → n ∈ assocKeys (c2.heap i).tableMap) ∧
    (∀ i, schemasSub (c.heap i) → schemasSub (c2.heap i)) := by
  unfold loadTable at h
  cases hds : (c.heap mId).DS with
  | none =>
    rw [hds] at h
    exact absurd h (by simp)
  | some ds =>
    rw [hds] at h
    simp only [] at h
    cases htf : ds.tableFn tn with
    | error e =>
      rw [htf] at h
      injection h with h1
      have h2 := congrArg Prod.fst h1
      simp only [] at h2
      subst h2
      exact ⟨fun i => rfl, fun i n hn => hn, fun i hs => hs⟩
    | ok ot =>
      cases ot with
      | none =>
        rw [htf] at h
        injection h with h1
        have h2 := congrArg Prod.fst h1
        simp only [] at h2
        subst h2
        exact ⟨fun i => rfl, fun i n hn => hn, fun i hs => hs⟩
      | some tbl =>
        rw [htf] at h
        injection h with h1
        have h2 := congrArg Prod.fst h1
        simp only [] at h2
        subst h2
        refine ⟨?_, ?_, ?_⟩
        · intro i
          by_cases hi : i = mId
          · subst hi
            rw [heap_setS_self]
          · rw [heap_setS_ne _ _ _ _ hi]
        · intro i n hn
          by_cases hi : i = mId
          · subst hi
            rw [heap_setS_self]
            exact mem_assocKeys_insert_of_mem _ _ hn
          · rw [heap_setS_ne _ _ _ _ hi]
            exact hn
        · intro i hss
          by_cases hi : i = mId
          · rw [hi] at hss ⊢
            rw [heap_setS_self]
            intro n hn
            have hn2 : n ∈ assocKeys (assocInsert (c.heap mId).tableSchemas
                (loadedTable c mId tn tbl).Name (some mId)) := hn
            rw [mem_assocKeys_insert] at hn2
            show n ∈ assocKeys (assocInsert (c.heap mId).tableMap
              (loadedTable c mId tn tbl).Name (some (loadedTable c mId tn tbl)))
            rcases hn2 with h1 | h1
            · exact mem_assocKeys_insert_of_mem _ _ (hss n h1)
            · subst h1
              exact self_mem_assocKeys_insert _ _ _
          · rw [heap_setS_ne _ _ _ _ hi]
            exact hss

/-- The partial invariant at the node being updated in the middle of
`addschemaForTableUnlocked`: the just-appended name may not yet be a
`tableMap` key. -/
def preInv (d : Schema) (tn : String) : Prop :=
  List.Sorted strLe d.tableNames ∧ d.tableNames.Nodup ∧
  (∀ n ∈ d.tableNames, n = tn ∨ n ∈ assocKeys d.tableMap) ∧ schemasSub d

theorem asftuFinish_inv (c : Catalog) (mId : SchemaId) (tn : String) (ssId : SchemaId)
    (tbl : Option Table)
    (hothers : ∀ i, i ≠ mId → SchemaInv (c.heap i))
    (hpre : preInv (c.heap mId) tn) :
    CatInv (asftuFinish c mId tn ssId tbl) := by
  obtain ⟨hs, hn, hns, hss⟩ := hpre
  unfold asftuFinish
  cases hl : assocLookup (c.heap mId).tableMap tn with
  | some v =>
    intro i
    by_cases hi : i = mId
    · subst hi
      refine ⟨hs, hn, ?_, hss⟩
      intro n hn2
      rcases hns n hn2 with h1 | h1
      · subst h1
        exact mem_assocKeys_of_lookup hl
      · exact h1
    · exact hothers i hi
  | none =>
    intro i
    by_cases hi : i = mId
    · rw [hi, heap_setS_self]
      refine ⟨hs, hn, ?_, ?_⟩
      · intro n hn2
        show n ∈ assocKeys (assocInsert (c.heap mId).tableMap tn tbl)
        rcases hns n hn2 with h1 | h1
        · subst h1
          exact self_mem_assocKeys_insert _ _ _
        · exact mem_assocKeys_insert_of_mem _ _ h1
      · intro n hn2
        have hn2' : n ∈ assocKeys (assocInsert (c.heap mId).tableSchemas tn (some ssId)) := hn2
        rw [mem_assocKeys_insert] at hn2'
        show n ∈ assocKeys (assocInsert (c.heap mId).tableMap tn tbl)
        rcases hn2' with h1 | h1
        · exact mem_assocKeys_insert_of_mem _ _ (hss n h1)
        · subst h1
          exact self_mem_assocKeys_insert _ _ _
    · rw [heap_setS_ne _ _ _ _ hi]
      exact hothers i hi

theorem asftuLoad_inv (c1 : Catalog) (mId : SchemaId) (tn : String) (ssId : SchemaId)
    (c' : Catalog)
    (h : asftuLoad c1 mId tn ssId = some c')
    (hothers : ∀ i, i ≠ mId → SchemaInv (c1.heap i))
    (hpre : preInv (c1.heap mId) tn) :
    CatInv c' := by
  unfold asftuLoad at h
  cases hf : assocFind ((c1.heap ssId).tableMap) tn with
  | some t =>
    rw [hf] at h
    injection h with h
    exact h ▸ asftuFinish_inv c1 mId tn ssId (some t) hothers hpre
  | none =>
    rw [hf] at h
    cases hload : loadTable c1 mId tn with
    | none =>
      rw [hload] at h
      exact absurd h (by simp)
    | some pr =>
      obtain ⟨c2, b⟩ := pr
      rw [hload] at h
      obtain ⟨hkn, hkm, hks⟩ := loadTable_keeps c1 c2 mId tn b hload
      have hothers2 : ∀ i, i ≠ mId → SchemaInv (c2.heap i) := by
        intro i hi
        exact schemaInv_transport _ _ (hkn i) (hkm i) (hks i) (hothers i hi)
      have hpre2 : preInv (c2.heap mId) tn := by
        obtain ⟨hs, hn, hns, hss⟩ := hpre
        refine ⟨hkn mId ▸ hs, hkn mId ▸ hn, ?_, hks mId hss⟩
        intro n hn2
        rw [hkn mId] at hn2
        rcases hns n hn2 with h1 | h1
        · exact Or.inl h1
        · exact Or.inr (hkm mId n h1)
      cases b with
      | true =>
        injection h with h
        exact h ▸ asftuFinish_inv c2 mId tn ssId _ hothers2 hpre2
      | false =>
        injection h with h
        exact h ▸ asftuFinish_inv c2 mId tn ssId none hothers2 hpre2

theorem addschemaForTableUnlocked_inv (c : Catalog) (mId : SchemaId) (tn : String)
    (ssId : SchemaId) (c' : Catalog)
    (h : addschemaForTableUnlocked c mId tn ssId = some c')
    (hinv : CatInv c) : CatInv c' := by
  unfold addschemaForTableUnlocked at h
  by_cases hmem : tn ∈ (c.heap mId).tableNames
  · rw [if_pos hmem] at h
    injection h with h
    exact h ▸ hinv
  · rw [if_neg hmem] at h
    apply asftuLoad_inv _ _ _ _ _ h
    · intro i hi
      rw [heap_setS_ne _ _ _ _ hi]
      exact hinv i
    · obtain ⟨hs, hn, hns, hss⟩ := hinv mId
      rw [heap_setS_self]
      refine ⟨?_, ?_, ?_, ?_⟩
      · exact sortStrings_sorted _
      · apply sortStrings_nodup
        rw [List.nodup_append]
        refine ⟨hn, List.nodup_singleton _, ?_⟩
        intro a ha hb
        rw [List.mem_singleton] at hb
        subst hb
        exact hmem ha
      · intro n hn2
        have hn2' : n ∈ sortStrings ((c.heap mId).tableNames ++ [tn]) := hn2
        rw [mem_sortStrings, List.mem_append, List.mem_singleton] at hn2'
        rcases hn2' with h1 | h1
        · exact Or.inr (hns n h1)
        · exact Or.inl h1
      · exact hss

theorem refreshOwn_inv (mId : SchemaId) :
    ∀ (l : List String) (c c' : Catalog),
      refreshOwn c mId l = some c' → CatInv c → CatInv c' := by
  intro l
  induction l with
  | nil =>
    intro c c' h hi
    unfold refreshOwn at h
    injection h with h
    exact h ▸ hi
  | cons n rest ih =>
    intro c c' h hi
    unfold refreshOwn at h
    cases ha : addschemaForTableUnlocked c mId n mId with
    | none =>
      rw [ha] at h
      exact absurd h (by simp)
    | some cm =>
      rw [ha] at h
      exact ih cm c' h (addschemaForTableUnlocked_inv _ _ _ _ _ ha hi)

theorem refreshChildTables_inv (mId ssId : SchemaId) :
    ∀ (l : List String) (c c' : Catalog),
      refreshChildTables mId ssId c l = some c' → CatInv c → CatInv c' := by
  intro l
  induction l with
  | nil =>
    intro c c' h hi
    unfold refreshChildTables at h
    injection h with h
    exact h ▸ hi
  | cons n rest ih =>
    intro c c' h hi
    unfold refreshChildTables at h
    cases ha : addschemaForTableUnlocked c mId n ssId with
    | none =>
      rw [ha] at h
      exact absurd h (by simp)
    | some cm =>
      rw [ha] at h
      exact ih cm c' h (addschemaForTableUnlocked_inv _ _ _ _ _ ha hi)

theorem refreshChildrenAux_inv (recur : Catalog → SchemaId → Option Catalog)
    (hrec : ∀ c s c', recur c s = some c' → CatInv c → CatInv c')
    (mId : SchemaId) :
    ∀ (l : List (String × SchemaId)) (c c' : Catalog),
      refreshChildrenAux recur mId c l = some c' → CatInv c → CatInv c' := by
  intro l
  induction l with
  | nil =>
    intro c c' h hi
    unfold refreshChildrenAux at h
    injection h with h
    exact h ▸ hi
  | cons p rest ih =>
    obtain ⟨nm, ssId⟩ := p
    intro c c' h hi
    unfold refreshChildrenAux at h
    cases h1 : recur c ssId with
    | none =>
      rw [h1] at h
      exact absurd h (by simp)
    | some ca =>
      rw [h1] at h
      simp only [] at h
      cases h2 : refreshChildTables mId ssId ca ((ca.heap ssId).tableNames) with
      | none =>
        rw [h2] at h
        exact absurd h (by simp)
      | some cb =>
        rw [h2] at h
        exact ih cb c' h
          (refreshChildTables_inv mId ssId _ _ _ h2 (hrec c ssId ca h1 hi))

theorem refreshSchemaUnlocked_inv :
    ∀ (fuel : Nat) (c : Catalog) (mId : SchemaId) (c' : Catalog),
      refreshSchemaUnlocked fuel c mId = some c' → CatInv c → CatInv c' := by
  intro fuel
  induction fuel with
  | zero =>
    intro c mId c' h _
    exact absurd h (by simp [refreshSchemaUnlocked])
  | succ fuel ih =>
    intro c mId c' h hi
    unfold refreshSchemaUnlocked at h
    cases hds : (c.heap mId).DS with
    | none =>
      rw [hds] at h
      exact absurd h (by simp)
    | some ds =>
      rw [hds] at h
      simp only [] at h
      cases h1 : refreshOwn c mId ds.tables with
      | none =>
        rw [h1] at h
        exact absurd h (by simp)
      | some ca =>
        rw [h1] at h
        exact refreshChildrenAux_inv _ (fun c2 s c3 hr hic => ih c2 s c3 hr hic) mId _ _ _ h
          (refreshOwn_inv mId _ _ _ h1 hi)

theorem copyChildTables_inv (mId childId : SchemaId) :
    ∀ (l : List (String × Option Table)) (c : Catalog),
      CatInv c → CatInv (copyChildTables mId childId c l) := by
  intro l
  induction l with
  | nil =>
    intro c hi
    exact hi
  | cons p rest ih =>
    obtain ⟨tn, tb⟩ := p
    intro c hi
    show CatInv (copyChildTables mId childId _ rest)
    apply ih
    intro i
    by_cases hi2 : i = mId
    · rw [hi2, heap_setS_self]
      obtain ⟨hs, hn, hns, hss⟩ := hi mId
      refine ⟨hs, hn, ?_, ?_⟩
      · intro n hn2
        show n ∈ assocKeys (assocInsert (c.heap mId).tableMap tn tb)
        exact mem_assocKeys_insert_of_mem _ _ (hns n hn2)
      · intro n hn2
        have hn2' : n ∈ assocKeys (assocInsert (c.heap mId).tableSchemas tn (some childId)) := hn2
        rw [mem_assocKeys_insert] at hn2'
        show n ∈ assocKeys (assocInsert (c.heap mId).tableMap tn tb)
        rcases hn2' with h1 | h1
        · exact mem_assocKeys_insert_of_mem _ _ (hss n h1)
        · subst h1
          exact self_mem_assocKeys_insert _ _ _
    · rw [heap_setS_ne _ _ _ _ hi2]
      exact hi i

theorem addChildSchema_inv (c : Catalog) (mId childId : SchemaId)
    (hi : CatInv c) : CatInv (addChildSchema c mId childId) := by
  simp only [addChildSchema]
  apply copyChildTables_inv
  intro i
  have hbase : ∀ j, SchemaInv ((setS c mId
      { c.heap mId with
        schemas := assocInsert (c.heap mId).schemas (c.heap childId).Name childId }).heap j) := by
    intro j
    by_cases hj : j = mId
    · rw [hj, heap_setS_self]
      exact hi mId
    · rw [heap_setS_ne _ _ _ _ hj]
      exact hi j
  by_cases h1 : i = childId
  · rw [h1, heap_setS_self]
    exact hbase childId
  · rw [heap_setS_ne _ _ _ _ h1]
    exact hbase i

theorem catInv_get_asftu (c1 : Catalog) (mId : SchemaId) (tn : String) (ssId : SchemaId)
    (hp : (addschemaForTableUnlocked c1 mId tn ssId).isSome = true)
    (hi : CatInv c1) :
    CatInv ((addschemaForTableUnlocked c1 mId tn ssId).get hp) :=
  addschemaForTableUnlocked_inv c1 mId tn ssId _ (Option.some_get hp).symm hi

theorem addTable_inv (c : Catalog) (mId : SchemaId) (tbl0 : Table)
    (hi : CatInv c) : CatInv (addTable c mId tbl0).1 := by
  apply catInv_get_asftu
  intro i
  by_cases h1 : i = mId
  · rw [h1, heap_setS_self]
    obtain ⟨hs, hn, hns, hss⟩ := hi mId
    refine ⟨hs, hn, ?_, ?_⟩
    · intro n hn2
      exact mem_assocKeys_insert_of_mem _ _ (hns n hn2)
    · intro n hn2
      exact mem_assocKeys_insert_of_mem _ _ (hss n hn2)
  · rw [heap_setS_ne _ _ _ _ h1]
    exact hi i

theorem applyOp_inv (c : Catalog) (op : Op) (c' : Catalog)
    (h : applyOp c op = some c') (hi : CatInv c) : CatInv c' := by
  cases op with
  | addTable mId tbl =>
    unfold applyOp at h
    injection h with h
    exact h ▸ addTable_inv c mId tbl hi
  | addChild mId childId =>
    unfold applyOp at h
    injection h with h
    exact h ▸ addChildSchema_inv c mId childId hi
  | refresh mId fuel =>
    exact refreshSchemaUnlocked_inv fuel c mId c' h hi

/-- C1 (amended): starting from any catalog whose nodes satisfy the
index invariant (for example freshly constructed schemas), any finite
completed sequence of `AddTable`, `addChildSchema` and
`refreshSchemaUnlocked` operations preserves, at every node:
`tableNames` is sorted ascending and duplicate-free, and the name set
of `tableNames` and the key set of `tableSchemas` are both subsets of
the key set of `tableMap`.  (The three sets are *not* identical in
general — see the counterexample: `AddTable` leaves the new name out of
`tableSchemas`, and `addChildSchema` leaves the copied names out of
`tableNames`.) -/
theorem c1_index_invariant (ops : List Op) :
    ∀ (c c' : Catalog), applyOps c ops = some c' → CatInv c → CatInv c' := by
  induction ops with
  | nil =>
    intro c c' h hi
    unfold applyOps at h
    injection h with h
    exact h ▸ hi
  | cons op rest ih =>
    intro c c' h hi
    unfold applyOps at h
    cases ha : applyOp c op with
    | none =>
      rw [ha] at h
      exact absurd h (by simp)
    | some cm =>
      rw [ha] at h
      exact ih cm c' h (applyOp_inv c op cm ha hi)

def c1xCatA : Catalog := ⟨fun _ => NewSchema "db"⟩

def c1xResA : Catalog := (applyOps c1xCatA [Op.addTable 0 (NewTable "users")]).getD c1xCatA

def c1xChild : Schema :=
  { NewSchema "c" with
    tableMap := [("t1", some (NewTable "t1"))]
    tableSchemas := [("t1", some 1)]
    tableNames := ["t1"] }

def c1xCatB : Catalog := ⟨fun i => if i = 1 then c1xChild else NewSchema "p"⟩

def c1xResB : Catalog := (applyOps c1xCatB [Op.addChild 0 1]).getD c1xCatB

/-- C1 counterexample: a single `AddTable` yields a node whose
`tableNames` and `tableMap` key list are `["users"]` but whose
`tableSchemas` key set is empty; and a single `addChildSchema` yields a
parent whose `tableMap` has key `"t1"` while its `tableNames` is still
empty.  The three sets are therefore not identical after arbitrary
sequences of these operations. -/
theorem c1_index_invariant_counterexample :
    applyOps c1xCatA [Op.addTable 0 (NewTable "users")] = some c1xResA ∧
    (c1xResA.heap 0).tableNames = ["users"] ∧
    assocKeys (c1xResA.heap 0).tableMap = ["users"] ∧
    assocKeys (c1xResA.heap 0).tableSchemas = [] ∧
    applyOps c1xCatB [Op.addChild 0 1] = some c1xResB ∧
    assocKeys (c1xResB.heap 0).tableMap = ["t1"] ∧
    (c1xResB.heap 0).tableNames = [] := by
  refine ⟨rfl, rfl, rfl, rfl, rfl, rfl, rfl⟩

def c1wSrc : Source := ⟨[], fun _ => Except.ok none, fun _ => (none, none)⟩

def c1wCat : Catalog :=
  ⟨fun i =>
    if i = 0 then NewSchemaSource "db" (some c1wSrc)
    else NewSchemaSource "child" (some c1wSrc)⟩

def c1wOps : List Op :=
  [Op.addTable 0 (NewTable "users"), Op.addChild 0 1, Op.refresh 0 2]

def c1wRes : Catalog := (applyOps c1wCat c1wOps).getD c1wCat

theorem c1_index_invariant_witness :
    SchemaInv (c1wRes.heap 0) ∧ SchemaInv (c1wRes.heap 1) := by
  have hbase : CatInv c1wCat := by
    intro i
    have hboth : SchemaInv (NewSchemaSource "db" (some c1wSrc)) ∧
        SchemaInv (NewSchemaSource "child" (some c1wSrc)) :=
      ⟨⟨List.sorted_nil, List.nodup_nil, fun n hn => absurd hn (List.not_mem_nil n),
          fun n hn => absurd hn (List.not_mem_nil n)⟩,
        ⟨List.sorted_nil, List.nodup_nil, fun n hn => absurd hn (List.not_mem_nil n),
          fun n hn => absurd hn (List.not_mem_nil n)⟩⟩
    show SchemaInv (c1wCat.heap i)
    by_cases h : i = 0
    · subst h
      exact hboth.1
    · have hh : c1wCat.heap i = NewSchemaSource "child" (some c1wSrc) := by
        simp [c1wCat, h]
      rw [hh]
      exact hboth.2
  have h := c1_index_invariant c1wOps c1wCat c1wRes rfl hbase
  exact ⟨h 0, h 1⟩

end QLBridge
